import Mathlib

/-!
Verification of the quadkey / geohash codecs of the `geo` package (point.go).

Modelling conventions.

* Go `float64` coordinate values are modelled by `ℚ`.  Every arithmetic
  operation the codecs perform on coordinates is of the form
  `(a + b) / 2` starting from the integer bounds ±180 / ±90, or a
  comparison; each such midpoint is a dyadic rational that `float64`
  represents and computes exactly within the precision relevant to the
  claims, so the `ℚ` model agrees with the code on every fact proved
  below.
* Go `uint64` values are modelled as `ℕ` with an explicit `% 2 ^ 64`
  where the code can wrap (left shifts); `int64` results are recovered
  by `toInt64`, the two's-complement reinterpretation of the `ℕ`
  representative.  Go arithmetic right shift of an `int64` by 5 is
  floor division of its value by 32, which for Lean's euclidean `/`
  on `ℤ` (positive divisor) is literally `z / 32`; the mask `z & 0x1F`
  of an `int64` is its nonnegative residue `z % 32`.
* Fallible code (array writes and slices that can go out of bounds in
  Go) is modelled with `Option`: `none` is a Go runtime bounds error.
-/

/-- Two's-complement reinterpretation of a `uint64` bit pattern (given as the
`ℕ` value below `2 ^ 64`) as an `int64` value, modelling Go's `int64(x)`. -/
def toInt64 (v : ℕ) : ℤ :=
  if v < 2 ^ 63 then (v : ℤ) else (v : ℤ) - 2 ^ 64

/-- Go conversion of a (possibly negative) integer to `uint64` / `uint`
(wrap modulo `2 ^ 64`), returned as the `ℕ` representative. -/
def goUintNat (z : ℤ) : ℕ :=
  (z % 2 ^ 64).toNat

/-- Go left shift on `uint64`: shift, wrapping modulo `2 ^ 64` (a shift count
of 64 or more yields 0, which the modulus also captures). -/
def goShl64 (a k : ℕ) : ℕ :=
  (a <<< k) % 2 ^ 64

/-- A Point is a simple X/Y or Lng/Lat 2d point, `[X, Y] = [Lng, Lat]`
(source type `Point [2]float64`; the two array slots are the two fields). -/
structure Point where
  x : ℚ
  y : ℚ
deriving DecidableEq

/-- `Lng` returns the longitude/horizontal component `p[0]` of the point. -/
def Point.Lng (p : Point) : ℚ := p.x

/-- `Lat` returns the latitude/vertical component `p[1]` of the point. -/
def Point.Lat (p : Point) : ℚ := p.y

/-- Modelled from the spec: `scalarMercatorProject`, the external Mercator
projection primitive (it lives in the repository's mercator helper file,
which is not among the given sources).  The spec specifies only that it is a
"standard spherical-Mercator grid projection" taking `(lng, lat)` at a
`level` to grid coordinates `(x, y)`, each in `[0, 2^level)`, covering the
grid over the valid domain `[-180,180] × [-90,90]`.  The longitude direction
is the standard affine grid map `x = ⌊(lng/360 + 1/2)·2^level⌋`; the
transcendental spherical-Mercator latitude warp is modelled by the monotone
affine surrogate `y = ⌊(1/2 - lat/180)·2^level⌋` (the claims below depend
only on the grid range and on corner cells, which the warp fixes: in
particular the top-left corner `(-180, 90)` maps to cell `(0, 0)` both here
and in spherical Mercator).  Both coordinates are clamped into the grid. -/
def scalarMercatorProject (lng lat : ℚ) (level : ℕ) : ℕ × ℕ :=
  (min (2 ^ level - 1) (Int.toNat ⌊(lng / 360 + 1 / 2) * 2 ^ level⌋),
   min (2 ^ level - 1) (Int.toNat ⌊(1 / 2 - lat / 180) * 2 ^ level⌋))

/-- Modelled from the spec: `scalarMercatorInverse`, the inverse grid
projection primitive (also outside the given sources).  It recovers a
representative `(lng, lat)` of grid cell `(x, y)` at a level; the longitude
is the standard `lng = 360·(x/2^level) - 180`, and the latitude warp is the
inverse of the affine surrogate used in `scalarMercatorProject`. -/
def scalarMercatorInverse (x y : ℕ) (level : ℕ) : ℚ × ℚ :=
  (360 * ((x : ℚ) / 2 ^ level) - 180, 90 - 180 * ((y : ℚ) / 2 ^ level))

/-- The bit-interleaving loop of `Point.Quadkey`:
`for i = 0; i < uint(level); i++ { result |= (x & (1 << i)) << i;
result |= (y & (1 << i)) << (i+1) }` with `result : uint64`. -/
def quadkeyLoop (x y : ℕ) : ℕ → ℕ
  | 0 => 0
  | i + 1 =>
    quadkeyLoop x y i ||| goShl64 (x &&& goShl64 1 i) i |||
      goShl64 (y &&& goShl64 1 i) (i + 1)

/-- `Point.Quadkey` returns the quad key for the given point at the provided
level: project to grid coordinates, interleave the low `level` bits, and
return the result as `int64`. -/
def Point.Quadkey (p : Point) (level : ℤ) : ℤ :=
  let q := scalarMercatorProject p.Lng p.Lat (goUintNat level)
  toInt64 (quadkeyLoop q.1 q.2 (goUintNat level))

/-- Character for a digit below 4, as `strconv` renders it. -/
def base4Char (d : ℕ) : Char := Char.ofNat (48 + d)

/-- Base-4 digits of `n`, least significant first, as characters; `fuel`
bounds the recursion and any `fuel ≥ n` gives all digits.  This is the
digit loop of `strconv.FormatInt(·, 4)`. -/
def base4Rev (fuel n : ℕ) : List Char :=
  match fuel, n with
  | _, 0 => []
  | 0, _ => []
  | f + 1, n + 1 => base4Char ((n + 1) % 4) :: base4Rev f ((n + 1) / 4)

/-- `strconv.FormatInt(z, 4)`: minus sign for negatives, digits most
significant first, `"0"` for zero. -/
def formatInt4 (z : ℤ) : List Char :=
  if z < 0 then '-' :: (base4Rev (-z).toNat (-z).toNat).reverse
  else if z = 0 then ['0']
  else (base4Rev z.toNat z.toNat).reverse

/-- The 30-character zero string `"000000000000000000000000000000"` used for
padding in `Point.QuadkeyString`. -/
def zerosGo : List Char := List.replicate 30 '0'

/-- `Point.QuadkeyString`: `s := strconv.FormatInt(p.Quadkey(level), 4)`,
then `zeros[:((level+1)-len(s))/2] + s`.  For every level `≤ 61` the Go
slice bound `((level+1)-len(s))/2` lies in `[0, 30]`, so the truncating
`ℕ` subtraction and `List.take` below coincide with Go's slicing. -/
def Point.QuadkeyString (p : Point) (level : ℕ) : String :=
  let s := formatInt4 (p.Quadkey level)
  String.mk (zerosGo.take ((level + 1 - s.length) / 2) ++ s)

/-- The bit-deinterleaving loop of `NewPointFromQuadkey`:
`for i = 0; i < uint(level); i++ { x |= (key & (1 << (2*i))) >> i;
y |= (key & (1 << (2*i+1))) >> (i+1) }`.  The `int64` bit operations agree
with the `ℕ` operations on the `uint64` representative for every key below
`2 ^ 63`, which covers all levels `≤ 31` (keys below `4 ^ 31`). -/
def quadkeyExtract (key : ℕ) : ℕ → ℕ × ℕ
  | 0 => (0, 0)
  | i + 1 =>
    let q := quadkeyExtract key i
    (q.1 ||| (key &&& goShl64 1 (2 * i)) >>> i,
     q.2 ||| (key &&& goShl64 1 (2 * i + 1)) >>> (i + 1))

/-- `NewPointFromQuadkey` creates a new point from a quadkey: extract the
interleaved grid coordinates and apply the inverse Mercator primitive. -/
def NewPointFromQuadkey (key : ℤ) (level : ℤ) : Point :=
  let q := quadkeyExtract (goUintNat key) (goUintNat level)
  let c := scalarMercatorInverse q.1 q.2 (goUintNat level)
  ⟨c.1, c.2⟩

/-- Digit classification of `strconv.ParseInt` restricted to base 4: the
characters `'0'`..`'3'` carry values `0`..`3`; every other character
(including `'4'`..`'9'` and letters, whose values are at least the base) is
a syntax error. -/
def base4DigitVal (c : Char) : Option ℕ :=
  if '0' ≤ c ∧ c ≤ '3' then some (c.toNat - 48) else none

/-- The digit-accumulation loop of `strconv.ParseUint` in base 4 (without
the overflow cutoff, which is applied by the caller as a clamp): `none` on
the first invalid digit. -/
def digitsVal4 : List Char → ℕ → Option ℕ
  | [], acc => some acc
  | c :: rest, acc =>
    match base4DigitVal c with
    | some d => digitsVal4 rest (acc * 4 + d)
    | none => none

/-- The value returned by `strconv.ParseInt(s, 4, 64)` regardless of the
error: `0` on a syntax error (empty string, bare sign, or invalid digit),
and the value clamped into the `int64` range on a range error.  The caller
in the source discards the error, so this value is all that matters. -/
def goParseInt4 (s : String) : ℤ :=
  match s.data with
  | [] => 0
  | c :: rest =>
    let neg : Bool := c = '-'
    let ds : List Char := if c = '-' ∨ c = '+' then rest else c :: rest
    match ds with
    | [] => 0
    | _ :: _ =>
      match digitsVal4 ds 0 with
      | none => 0
      | some v => if neg then -(min (v : ℤ) (2 ^ 63)) else min (v : ℤ) (2 ^ 63 - 1)

/-- Whether `strconv.ParseInt(s, 4, 64)` reports no syntax error: a
nonempty string, an optional sign followed by at least one character, and
all remaining characters valid base-4 digits. -/
def base4SyntaxOK (s : String) : Bool :=
  match s.data with
  | [] => false
  | c :: rest =>
    let ds : List Char := if c = '-' ∨ c = '+' then rest else c :: rest
    !ds.isEmpty && ds.all fun d => decide ('0' ≤ d ∧ d ≤ '3')

/-- `NewPointFromQuadkeyString` creates a new point from a quadkey string:
`i, _ := strconv.ParseInt(key, 4, 64)` — the parse error is discarded —
then `NewPointFromQuadkey(i, len(key))`. -/
def NewPointFromQuadkeyString (s : String) : Point :=
  NewPointFromQuadkey (goParseInt4 s) (s.length : ℤ)

/-- The running state of the `Point.GeoHashInt64` loop: the accumulator
(`int64`, kept as its `uint64` representative) and the four bounds. -/
structure GHState where
  hash : ℕ
  latMin : ℚ
  latMax : ℚ
  lngMin : ℚ
  lngMax : ℚ
deriving DecidableEq

/-- The initial bounds `latMin, latMax = -90, 90`, `lngMin, lngMax = -180,
180` and a zero accumulator. -/
def ghInit : GHState := ⟨0, -90, 90, -180, 180⟩

/-- One iteration (index `i`) of the `Point.GeoHashInt64` loop: shift the
accumulator (`hash <<= 1` on `int64` wraps modulo `2 ^ 64`), then bisect the
longitude bounds on even `i` and the latitude bounds on odd `i`, OR-ing in a
1 bit exactly when the coordinate exceeds the midpoint. -/
def ghStep (p : Point) (i : ℕ) (s : GHState) : GHState :=
  let h := 2 * s.hash % 2 ^ 64
  if i % 2 = 0 then
    let mid := (s.lngMin + s.lngMax) / 2
    if p.x > mid then { s with hash := h ||| 1, lngMin := mid }
    else { s with hash := h, lngMax := mid }
  else
    let mid := (s.latMin + s.latMax) / 2
    if p.y > mid then { s with hash := h ||| 1, latMin := mid }
    else { s with hash := h, latMax := mid }

/-- `n` iterations of the `Point.GeoHashInt64` loop. -/
def ghLoop (p : Point) : ℕ → GHState
  | 0 => ghInit
  | n + 1 => ghStep p n (ghLoop p n)

/-- `Point.GeoHashInt64` returns the integer version of the geohash down to
the given number of bits (the loop `for i := 0; i < bits; i++` runs
`bits.toNat` times: not at all when `bits` is negative). -/
def Point.GeoHashInt64 (p : Point) (bits : ℤ) : ℤ :=
  toInt64 (ghLoop p bits.toNat).hash

/-- The constant `base32 = "0123456789bcdefghjkmnpqrstuvwxyz"`. -/
def base32Chars : List Char :=
  ['0', '1', '2', '3', '4', '5', '6', '7', '8', '9', 'b', 'c', 'd', 'e',
   'f', 'g', 'h', 'j', 'k', 'm', 'n', 'p', 'q', 'r', 's', 't', 'u', 'v',
   'w', 'x', 'y', 'z']

/-- `base32[hash & 0x1F]`: the mask keeps the five least significant bits,
which for an `int64` is the nonnegative residue modulo 32, so the list index
is always in range and the fallback character is dead code. -/
def base32Char (h : ℤ) : Char :=
  base32Chars.getD (h % 32).toNat ' '

/-- A Go array write `buf[idx] = c`: out-of-range indices are a runtime
bounds error, modelled as `none`. -/
def goSet? (buf : List Char) (idx : ℤ) (c : Char) : Option (List Char) :=
  if 0 ≤ idx ∧ idx < (buf.length : ℤ) then some (buf.set idx.toNat c) else none

/-- A Go slice `buf[:n]`: a runtime bounds error unless `0 ≤ n ≤ len(buf)`. -/
def goTake? (buf : List Char) (n : ℤ) : Option (List Char) :=
  if 0 ≤ n ∧ n ≤ (buf.length : ℤ) then some (buf.take n.toNat) else none

/-- Iteration `i = k + 1` (0-based `k`) of the `Point.GeoHash` loop:
`result[precision-i] = byte(base32[hash & 0x1F]); hash >>= 5`, the
arithmetic shift being floor (euclidean) division by 32. -/
def ghIter (precision : ℤ) (k : ℕ) (st : List Char × ℤ) : Option (List Char × ℤ) :=
  (goSet? st.1 (precision - 1 - k) (base32Char st.2)).map fun buf => (buf, st.2 / 32)

/-- The first `k` iterations of the `Point.GeoHash` write loop, starting
from buffer `buf0` and accumulator `h0`. -/
def ghWrites (precision : ℤ) (h0 : ℤ) (buf0 : List Char) : ℕ → Option (List Char × ℤ)
  | 0 => some (buf0, h0)
  | k + 1 => (ghWrites precision h0 buf0 k).bind (ghIter precision k)

/-- `Point.GeoHash` with an explicit precision (the variadic parameter with
its default already resolved by the caller): `var result [15]byte`, then
`hash := p.GeoHashInt64(5 * precision)`, the write loop for
`i = 1 .. precision`, and finally `string(result[:precision])`.  A `none`
is a Go runtime bounds error (array index or slice out of range). -/
def Point.GeoHash (p : Point) (precision : ℤ) : Option String :=
  let hash := p.GeoHashInt64 (5 * precision)
  (ghWrites precision hash (List.replicate 15 (Char.ofNat 0)) precision.toNat).bind
    fun st => (goTake? st.1 precision).map fun l => String.mk l

/-! ## Spec-side definitions (stated from the specification's wording) -/

/-- Spec-side base-4 representation of a nonnegative integer: its base-4
digit list (via `Nat.digits`), most significant digit first, `"0"` for 0. -/
def specBase4 (z : ℤ) : List Char :=
  if z = 0 then ['0'] else (Nat.digits 4 z.toNat).reverse.map base4Char

/-- Spec-side bisection bounds for the geohash after `i` iterations:
`((lngMin, lngMax), (latMin, latMax))`, longitude bisected on even
iteration indices and latitude on odd ones, the lower bound raised to the
midpoint exactly when the coordinate exceeds the midpoint. -/
def ghSpecBounds (p : Point) : ℕ → (ℚ × ℚ) × (ℚ × ℚ)
  | 0 => ((-180, 180), (-90, 90))
  | i + 1 =>
    let b := ghSpecBounds p i
    if i % 2 = 0 then
      let mid := (b.1.1 + b.1.2) / 2
      if p.Lng > mid then ((mid, b.1.2), b.2) else ((b.1.1, mid), b.2)
    else
      let mid := (b.2.1 + b.2.2) / 2
      if p.Lat > mid then (b.1, (mid, b.2.2)) else (b.1, (b.2.1, mid))

/-- Spec-side bit emitted by iteration `i` of the geohash bisection: 1
exactly when the active coordinate exceeds the midpoint of its bounds. -/
def ghSpecBit (p : Point) (i : ℕ) : Bool :=
  let b := ghSpecBounds p i
  if i % 2 = 0 then decide (p.Lng > (b.1.1 + b.1.2) / 2)
  else decide (p.Lat > (b.2.1 + b.2.2) / 2)

/-- `k`-fold arithmetic right shift by 5 of an `int64` value (floor
division by 32 `k` times), as the spec's "shifting the accumulator right
by 5" repeated. -/
def shr5s (h : ℤ) : ℕ → ℤ
  | 0 => h
  | k + 1 => shr5s h k / 32

/-- Spec-side geohash string of `c` characters built from an accumulator:
character `j` is the base-32 symbol of the five least significant bits
after `c - 1 - j` right shifts, so the last five bits extracted land in the
first character. -/
def specGeoHashStr (h : ℤ) (c : ℕ) : String :=
  String.mk ((List.range c).map fun j => base32Char (shr5s h (c - 1 - j)))

/-- Both longitudes lie in one hemisphere (both east or both west of the
zero meridian). -/
def sameHemisphere (a b : ℚ) : Prop :=
  (0 ≤ a ∧ 0 ≤ b) ∨ (a ≤ 0 ∧ b ≤ 0)

instance (a b : ℚ) : Decidable (sameHemisphere a b) := by
  unfold sameHemisphere; infer_instance

/-! ## Helper lemmas: machine arithmetic -/

lemma two_mul_or_one (k : ℕ) : 2 * k ||| 1 = 2 * k + 1 := by
  apply Nat.eq_of_testBit_eq
  intro i
  cases i with
  | zero =>
    rw [Nat.testBit_or]
    rw [Nat.testBit_zero, Nat.testBit_zero, Nat.testBit_zero]
    have h1 : 2 * k % 2 = 0 := by omega
    have h2 : (2 * k + 1) % 2 = 1 := by omega
    rw [h1, h2]
    simp
  | succ j =>
    rw [Nat.testBit_or]
    rw [Nat.testBit_succ, Nat.testBit_succ, Nat.testBit_succ]
    have h1 : 2 * k / 2 = k := by omega
    have h2 : (2 * k + 1) / 2 = k := by omega
    have h3 : (1 : ℕ) / 2 = 0 := by omega
    rw [h1, h2, h3]
    simp

lemma twoMulModOrOne (x : ℕ) : 2 * x % 2 ^ 64 ||| 1 = 2 * x % 2 ^ 64 + 1 := by
  have h : 2 * x % 2 ^ 64 = 2 * (x % 2 ^ 63) := by omega
  rw [h, two_mul_or_one]

lemma toInt64_of_lt {v : ℕ} (h : v < 2 ^ 63) : toInt64 v = (v : ℤ) := by
  unfold toInt64
  rw [if_pos h]

lemma toInt64_neg_of_ge {v : ℕ} (h : 2 ^ 63 ≤ v) (h2 : v < 2 ^ 64) :
    toInt64 v < 0 := by
  unfold toInt64
  rw [if_neg (by omega)]
  have : (v : ℤ) < 2 ^ 64 := by exact_mod_cast h2
  omega

lemma goUintNat_natCast (n : ℕ) (h : n < 2 ^ 64) : goUintNat (n : ℤ) = n := by
  unfold goUintNat
  rw [Int.emod_eq_of_lt (by positivity) (by exact_mod_cast h)]
  exact Int.toNat_natCast n

/-! ## Helper lemmas: the quadkey interleaving loop, bit by bit -/

lemma goShl64_two_pow {i : ℕ} (h : i < 64) : goShl64 1 i = 2 ^ i := by
  unfold goShl64
  rw [Nat.shiftLeft_eq, one_mul]
  exact Nat.mod_eq_of_lt (Nat.pow_lt_pow_right (by norm_num) h)

lemma goShl64_of_lt {a k : ℕ} (h : a <<< k < 2 ^ 64) : goShl64 a k = a <<< k :=
  Nat.mod_eq_of_lt h

lemma and_two_pow_shl_testBit (x i k n : ℕ) (hik : i + k < 64) :
    (goShl64 (x &&& 2 ^ i) k).testBit n = (decide (n = i + k) && x.testBit i) := by
  have hle : x &&& 2 ^ i ≤ 2 ^ i := Nat.and_le_right
  have hlt : (x &&& 2 ^ i) <<< k < 2 ^ 64 := by
    calc (x &&& 2 ^ i) <<< k = (x &&& 2 ^ i) * 2 ^ k := Nat.shiftLeft_eq _ _
      _ ≤ 2 ^ i * 2 ^ k := Nat.mul_le_mul_right _ hle
      _ = 2 ^ (i + k) := (pow_add 2 i k).symm
      _ < 2 ^ 64 := Nat.pow_lt_pow_right (by norm_num) hik
  rw [goShl64_of_lt hlt, Nat.testBit_shiftLeft, Nat.testBit_and]
  by_cases hn : n = i + k
  · subst hn
    have h1 : i + k - k = i := by omega
    have h2 : k ≤ i + k := by omega
    rw [h1]
    simp [h2, Nat.testBit_two_pow_self]
  · by_cases hk : k ≤ n
    · have : ¬ (i = n - k) := by omega
      rw [Nat.testBit_two_pow_of_ne this]
      simp [hk, hn]
    · simp [hk, hn]

lemma quadkeyLoop_testBit (x y L : ℕ) (hL : L ≤ 32) (n : ℕ) :
    (quadkeyLoop x y L).testBit n =
      (decide (n / 2 < L) &&
        if n % 2 = 0 then x.testBit (n / 2) else y.testBit (n / 2)) := by
  induction L with
  | zero => simp [quadkeyLoop]
  | succ i ih =>
    have hi : i ≤ 32 := by omega
    have hA : (goShl64 (x &&& goShl64 1 i) i).testBit n
        = (decide (n = 2 * i) && x.testBit i) := by
      rw [goShl64_two_pow (by omega), and_two_pow_shl_testBit x i i n (by omega)]
      have hd : decide (n = i + i) = decide (n = 2 * i) := decide_eq_decide.mpr (by omega)
      rw [hd]
    have hB : (goShl64 (y &&& goShl64 1 i) (i + 1)).testBit n
        = (decide (n = 2 * i + 1) && y.testBit i) := by
      rw [goShl64_two_pow (by omega), and_two_pow_shl_testBit y i (i + 1) n (by omega)]
      have hd : decide (n = i + (i + 1)) = decide (n = 2 * i + 1) := decide_eq_decide.mpr (by omega)
      rw [hd]
    rw [quadkeyLoop, Nat.testBit_or, Nat.testBit_or, ih hi, hA, hB]
    by_cases h1 : n = 2 * i
    · subst h1
      have e1 : 2 * i / 2 = i := by omega
      have e2 : 2 * i % 2 = 0 := by omega
      rw [e1, e2]
      have e3 : ¬ (i < i) := by omega
      have e4 : i < i + 1 := by omega
      simp [e3, e4]
    · by_cases h2 : n = 2 * i + 1
      · subst h2
        have e1 : (2 * i + 1) / 2 = i := by omega
        have e2 : ¬ ((2 * i + 1) % 2 = 0) := by omega
        have e3 : ¬ (i < i) := by omega
        have e4 : i < i + 1 := by omega
        rw [e1]
        simp [e2, e3, e4]
      · have e1 : decide (n / 2 < i) = decide (n / 2 < i + 1) := decide_eq_decide.mpr (by omega)
        rw [e1]
        simp [h1, h2]

lemma quadkeyLoop_lt (x y L : ℕ) (hL : L ≤ 32) :
    quadkeyLoop x y L < 2 ^ (2 * L) := by
  apply Nat.lt_pow_two_of_testBit
  intro i hi
  rw [quadkeyLoop_testBit x y L hL i]
  have : ¬ (i / 2 < L) := by omega
  simp [this]

lemma quadkeyExtract_fst_testBit (key L : ℕ) (hL : L ≤ 32) (n : ℕ) :
    ((quadkeyExtract key L).1).testBit n = (decide (n < L) && key.testBit (2 * n)) := by
  induction L with
  | zero => simp [quadkeyExtract]
  | succ i ih =>
    have hi : i ≤ 32 := by omega
    have hA : ((key &&& goShl64 1 (2 * i)) >>> i).testBit n
        = (decide (n = i) && key.testBit (2 * i)) := by
      rw [goShl64_two_pow (by omega), Nat.testBit_shiftRight, Nat.testBit_and]
      by_cases hn : n = i
      · subst hn
        simp [Nat.testBit_two_pow_self, two_mul]
      · have : ¬ (2 * i = i + n) := by omega
        rw [Nat.testBit_two_pow_of_ne this]
        simp [hn]
    rw [quadkeyExtract]
    simp only []
    rw [Nat.testBit_or, ih hi, hA]
    by_cases hn : n = i
    · subst hn
      have e3 : ¬ (n < n) := by omega
      have e4 : n < n + 1 := by omega
      simp [e3, e4]
    · have e1 : decide (n < i) = decide (n < i + 1) := decide_eq_decide.mpr (by omega)
      rw [e1]
      simp [hn]

lemma quadkeyExtract_snd_testBit (key L : ℕ) (hL : L ≤ 32) (n : ℕ) :
    ((quadkeyExtract key L).2).testBit n = (decide (n < L) && key.testBit (2 * n + 1)) := by
  induction L with
  | zero => simp [quadkeyExtract]
  | succ i ih =>
    have hi : i ≤ 32 := by omega
    have hB : ((key &&& goShl64 1 (2 * i + 1)) >>> (i + 1)).testBit n
        = (decide (n = i) && key.testBit (2 * i + 1)) := by
      rw [goShl64_two_pow (by omega), Nat.testBit_shiftRight, Nat.testBit_and]
      by_cases hn : n = i
      · subst hn
        have h5 : 2 * n + 1 = n + 1 + n := by omega
        rw [h5]
        simp [Nat.testBit_two_pow_self]
      · have : ¬ (2 * i + 1 = i + 1 + n) := by omega
        rw [Nat.testBit_two_pow_of_ne this]
        simp [hn]
    rw [quadkeyExtract]
    simp only []
    rw [Nat.testBit_or, ih hi, hB]
    by_cases hn : n = i
    · subst hn
      have e3 : ¬ (n < n) := by omega
      have e4 : n < n + 1 := by omega
      simp [e3, e4]
    · have e1 : decide (n < i) = decide (n < i + 1) := decide_eq_decide.mpr (by omega)
      rw [e1]
      simp [hn]

lemma four_pow_eq (L : ℕ) : (4 : ℕ) ^ L = 2 ^ (2 * L) := by
  rw [show (4 : ℕ) = 2 ^ 2 from rfl, ← pow_mul]

lemma quadkeyExtract_quadkeyLoop (L x y : ℕ) (hL : L ≤ 32)
    (hx : x < 2 ^ L) (hy : y < 2 ^ L) :
    quadkeyExtract (quadkeyLoop x y L) L = (x, y) := by
  have hfst : (quadkeyExtract (quadkeyLoop x y L) L).1 = x := by
    apply Nat.eq_of_testBit_eq
    intro n
    rw [quadkeyExtract_fst_testBit _ L hL n, quadkeyLoop_testBit x y L hL (2 * n)]
    have e1 : 2 * n / 2 = n := by omega
    have e2 : 2 * n % 2 = 0 := by omega
    rw [e1, e2]
    by_cases hn : n < L
    · simp [hn]
    · have : x.testBit n = false :=
        Nat.testBit_lt_two_pow
          (lt_of_lt_of_le hx (Nat.pow_le_pow_right (by norm_num) (by omega)))
      simp [hn, this]
  have hsnd : (quadkeyExtract (quadkeyLoop x y L) L).2 = y := by
    apply Nat.eq_of_testBit_eq
    intro n
    rw [quadkeyExtract_snd_testBit _ L hL n, quadkeyLoop_testBit x y L hL (2 * n + 1)]
    have e1 : (2 * n + 1) / 2 = n := by omega
    have e2 : ¬ ((2 * n + 1) % 2 = 0) := by omega
    rw [e1]
    by_cases hn : n < L
    · simp [hn, e2]
    · have : y.testBit n = false :=
        Nat.testBit_lt_two_pow
          (lt_of_lt_of_le hy (Nat.pow_le_pow_right (by norm_num) (by omega)))
      simp [hn, this]
  exact Prod.ext hfst hsnd

lemma quadkeyLoop_quadkeyExtract (L key : ℕ) (hL : L ≤ 32) (hk : key < 2 ^ (2 * L)) :
    quadkeyLoop (quadkeyExtract key L).1 (quadkeyExtract key L).2 L = key := by
  apply Nat.eq_of_testBit_eq
  intro n
  rw [quadkeyLoop_testBit _ _ L hL n]
  by_cases hp : n % 2 = 0
  · rw [if_pos hp, quadkeyExtract_fst_testBit _ L hL (n / 2)]
    have e : 2 * (n / 2) = n := by omega
    rw [e]
    by_cases hn : n / 2 < L
    · simp [hn]
    · have : key.testBit n = false :=
        Nat.testBit_lt_two_pow
          (lt_of_lt_of_le hk (Nat.pow_le_pow_right (by norm_num) (by omega)))
      simp [hn, this]
  · rw [if_neg hp, quadkeyExtract_snd_testBit _ L hL (n / 2)]
    have e : 2 * (n / 2) + 1 = n := by omega
    rw [e]
    by_cases hn : n / 2 < L
    · simp [hn]
    · have : key.testBit n = false :=
        Nat.testBit_lt_two_pow
          (lt_of_lt_of_le hk (Nat.pow_le_pow_right (by norm_num) (by omega)))
      simp [hn, this]

lemma quadkeyExtract_fst_lt (key L : ℕ) (hL : L ≤ 32) :
    (quadkeyExtract key L).1 < 2 ^ L := by
  apply Nat.lt_pow_two_of_testBit
  intro n hn
  rw [quadkeyExtract_fst_testBit _ L hL n]
  have : ¬ (n < L) := by omega
  simp [this]

lemma quadkeyExtract_snd_lt (key L : ℕ) (hL : L ≤ 32) :
    (quadkeyExtract key L).2 < 2 ^ L := by
  apply Nat.lt_pow_two_of_testBit
  intro n hn
  rw [quadkeyExtract_snd_testBit _ L hL n]
  have : ¬ (n < L) := by omega
  simp [this]

/-- The interleaving loop as a map between the finite grids, for the
bijectivity statement of the quadkey encoding. -/
def quadkeyFin (L : ℕ) (q : Fin (2 ^ L) × Fin (2 ^ L)) : Fin (4 ^ L) :=
  if hL : L ≤ 32 then
    ⟨quadkeyLoop q.1 q.2 L, by
      rw [four_pow_eq]
      exact quadkeyLoop_lt q.1 q.2 L hL⟩
  else ⟨0, by positivity⟩

lemma quadkeyFin_val (L : ℕ) (hL32 : L ≤ 32) (q : Fin (2 ^ L) × Fin (2 ^ L)) :
    (quadkeyFin L q).val = quadkeyLoop q.1 q.2 L := by
  unfold quadkeyFin
  rw [dif_pos hL32]

/-- C2: for every level `L` in `[0, 31]` and grid coordinates `x, y` each in
`[0, 2^L)`, the quadkey bit interleaving (bit `i` of `x` at position `2i`,
bit `i` of `y` at position `2i+1`) is a bijection onto `[0, 4^L)`, and the
decode loop of `NewPointFromQuadkey` extracts exactly the original `(x, y)`
back from the interleaved integer. -/
theorem quadkey_interleave_bijective (L : ℕ) (hL : L ≤ 31) :
    Function.Bijective (quadkeyFin L) ∧
      ∀ x y : ℕ, x < 2 ^ L → y < 2 ^ L →
        quadkeyExtract (quadkeyLoop x y L) L = (x, y) := by
  have hL32 : L ≤ 32 := by omega
  refine ⟨⟨?_, ?_⟩, ?_⟩
  · intro a b hab
    have hv : quadkeyLoop a.1 a.2 L = quadkeyLoop b.1 b.2 L := by
      have h := congrArg Fin.val hab
      rwa [quadkeyFin_val L hL32 a, quadkeyFin_val L hL32 b] at h
    have h1 := quadkeyExtract_quadkeyLoop L a.1 a.2 hL32 a.1.isLt a.2.isLt
    have h2 := quadkeyExtract_quadkeyLoop L b.1 b.2 hL32 b.1.isLt b.2.isLt
    rw [hv, h2] at h1
    have efst := congrArg Prod.fst h1
    have esnd := congrArg Prod.snd h1
    exact Prod.ext (Fin.ext efst.symm) (Fin.ext esnd.symm)
  · intro k
    have hk : (k : ℕ) < 2 ^ (2 * L) := by rw [← four_pow_eq]; exact k.isLt
    refine ⟨⟨⟨(quadkeyExtract k L).1, quadkeyExtract_fst_lt k L hL32⟩,
            ⟨(quadkeyExtract k L).2, quadkeyExtract_snd_lt k L hL32⟩⟩, ?_⟩
    apply Fin.ext
    rw [quadkeyFin_val L hL32]
    exact quadkeyLoop_quadkeyExtract L k hL32 hk
  · intro x y hx hy
    exact quadkeyExtract_quadkeyLoop L x y hL32 hx hy

/-- Witness for C2 at the concrete level 2 and grid pair `(1, 2)`. -/
theorem quadkey_interleave_bijective_witness :
    (2 ≤ 31) ∧ Function.Bijective (quadkeyFin 2) ∧
      quadkeyExtract (quadkeyLoop 1 2 2) 2 = (1, 2) :=
  ⟨by decide, (quadkey_interleave_bijective 2 (by decide)).1,
    (quadkey_interleave_bijective 2 (by decide)).2 1 2 (by decide) (by decide)⟩

/-- C8: `quadkey(p, 0)` equals 0 for every point `p` (the interleaving loop
does not run at level 0, whatever the projection produced). -/
theorem quadkey_level_zero (p : Point) : p.Quadkey 0 = 0 := by
  norm_num [Point.Quadkey, goUintNat, quadkeyLoop, toInt64]

/-- C10: for every point and every level `L ≤ 31`, the quadkey is
nonnegative and below `4^L`: the interleaving loop only places bits of `x`
and `y` with index below `L` at output positions below `2L`, regardless of
the grid values the Mercator projection produced. -/
theorem quadkey_in_range (p : Point) (L : ℕ) (hL : L ≤ 31) :
    0 ≤ p.Quadkey L ∧ p.Quadkey L < 4 ^ L := by
  have hL32 : L ≤ 32 := by omega
  have hcast : goUintNat (L : ℤ) = L := goUintNat_natCast L (by omega)
  have hlt : quadkeyLoop (scalarMercatorProject p.Lng p.Lat L).1
      (scalarMercatorProject p.Lng p.Lat L).2 L < 2 ^ (2 * L) :=
    quadkeyLoop_lt _ _ L hL32
  have h63 : quadkeyLoop (scalarMercatorProject p.Lng p.Lat L).1
      (scalarMercatorProject p.Lng p.Lat L).2 L < 2 ^ 63 :=
    lt_of_lt_of_le hlt (Nat.pow_le_pow_right (by norm_num) (by omega))
  constructor
  · simp only [Point.Quadkey, hcast]
    rw [toInt64_of_lt h63]
    exact Int.natCast_nonneg _
  · simp only [Point.Quadkey, hcast]
    rw [toInt64_of_lt h63]
    have h4 : quadkeyLoop (scalarMercatorProject p.Lng p.Lat L).1
        (scalarMercatorProject p.Lng p.Lat L).2 L < 4 ^ L := by
      rw [four_pow_eq]; exact hlt
    exact_mod_cast h4

/-- Witness for C10 at the point `(0, 0)` and level 3. -/
theorem quadkey_in_range_witness :
    (3 ≤ 31) ∧ (0 ≤ Point.Quadkey ⟨0, 0⟩ 3 ∧ Point.Quadkey ⟨0, 0⟩ 3 < 4 ^ 3) :=
  ⟨by decide, quadkey_in_range ⟨0, 0⟩ 3 (by decide)⟩

/-! ## Helper lemmas: base-4 rendering and the quadkey string -/

lemma quadkeyLoop_zero_zero (L : ℕ) : quadkeyLoop 0 0 L = 0 := by
  induction L with
  | zero => rfl
  | succ i ih =>
    rw [quadkeyLoop, ih]
    simp [goShl64, Nat.zero_and, Nat.zero_shiftLeft]

lemma base4Rev_eq_digits (fuel : ℕ) :
    ∀ n : ℕ, n ≤ fuel → base4Rev fuel n = (Nat.digits 4 n).map base4Char := by
  induction fuel with
  | zero =>
    intro n hn
    have : n = 0 := by omega
    subst this
    simp [base4Rev]
  | succ f ih =>
    intro n hn
    cases n with
    | zero => simp [base4Rev]
    | succ m =>
      rw [base4Rev, Nat.digits_def' (by norm_num : 1 < 4) (Nat.succ_pos m)]
      rw [List.map_cons]
      congr 1
      exact ih ((m + 1) / 4) (by omega)

lemma formatInt4_of_nonneg {z : ℤ} (h : 0 ≤ z) : formatInt4 z = specBase4 z := by
  unfold formatInt4 specBase4
  rw [if_neg (by omega)]
  by_cases h0 : z = 0
  · rw [if_pos h0, if_pos h0]
  · rw [if_neg h0, if_neg h0]
    rw [base4Rev_eq_digits z.toNat z.toNat le_rfl]
    rw [List.map_reverse]

lemma specBase4_length_pos (z : ℤ) (hz : 0 ≤ z) : 1 ≤ (specBase4 z).length := by
  unfold specBase4
  by_cases h0 : z = 0
  · rw [if_pos h0]; simp
  · rw [if_neg h0]
    simp only [List.length_map, List.length_reverse]
    have h : z.toNat ≠ 0 := by omega
    rw [Nat.digits_len 4 z.toNat (by norm_num) h]
    omega

lemma specBase4_length_le {v L : ℕ} (hv : v < 4 ^ L) (hL : 1 ≤ L) :
    (specBase4 (v : ℤ)).length ≤ L := by
  unfold specBase4
  by_cases h0 : (v : ℤ) = 0
  · rw [if_pos h0]; simpa using hL
  · rw [if_neg h0]
    simp only [List.length_map, List.length_reverse, Int.toNat_natCast]
    have hv0 : v ≠ 0 := by exact_mod_cast h0
    rw [Nat.digits_len 4 v (by norm_num) hv0]
    have := Nat.log_lt_of_lt_pow hv0 hv
    omega

/-- C1 (amended): the quadkey string is the base-4 representation of the
key left-padded with exactly `((L+1) - digitCount)/2` zeros; its length is
`digitCount + ((L+1) - digitCount)/2`, which equals `L` exactly when the
digit count is `L-1` or `L` — for keys with fewer base-4 digits the string
is shorter than `L`. -/
theorem quadkeyString_padding (p : Point) (L : ℕ) (hL : L ≤ 31) :
    p.QuadkeyString L =
      String.mk (List.replicate
          ((L + 1 - (specBase4 (p.Quadkey L)).length) / 2) '0'
        ++ specBase4 (p.Quadkey L)) ∧
    (p.QuadkeyString L).length =
      (specBase4 (p.Quadkey L)).length
        + (L + 1 - (specBase4 (p.Quadkey L)).length) / 2 ∧
    ((p.QuadkeyString L).length = L ↔
      (specBase4 (p.Quadkey L)).length + 1 = L ∨
        (specBase4 (p.Quadkey L)).length = L) := by
  have hL32 : L ≤ 32 := by omega
  have hcast : goUintNat (L : ℤ) = L := goUintNat_natCast L (by omega)
  have hlt : quadkeyLoop (scalarMercatorProject p.Lng p.Lat L).1
      (scalarMercatorProject p.Lng p.Lat L).2 L < 2 ^ (2 * L) :=
    quadkeyLoop_lt _ _ L hL32
  have h63 : quadkeyLoop (scalarMercatorProject p.Lng p.Lat L).1
      (scalarMercatorProject p.Lng p.Lat L).2 L < 2 ^ 63 :=
    lt_of_lt_of_le hlt (Nat.pow_le_pow_right (by norm_num) (by omega))
  have hQ : p.Quadkey L = ((quadkeyLoop (scalarMercatorProject p.Lng p.Lat L).1
      (scalarMercatorProject p.Lng p.Lat L).2 L : ℕ) : ℤ) := by
    simp only [Point.Quadkey, hcast]
    rw [toInt64_of_lt h63]
  set v : ℕ := quadkeyLoop (scalarMercatorProject p.Lng p.Lat L).1
      (scalarMercatorProject p.Lng p.Lat L).2 L with hv
  have hform : formatInt4 (p.Quadkey L) = specBase4 (p.Quadkey L) := by
    rw [hQ]
    exact formatInt4_of_nonneg (by positivity)
  set d : ℕ := (specBase4 (p.Quadkey L)).length with hd
  have hd1 : 1 ≤ d := by
    rw [hd, hQ]
    exact specBase4_length_pos _ (by positivity)
  have hdL : d ≤ L ∨ L = 0 := by
    by_cases hL0 : L = 0
    · right; exact hL0
    · left
      have hv4 : v < 4 ^ L := by
        rw [four_pow_eq]; exact hlt
      have := specBase4_length_le hv4 (by omega)
      rw [hd, hQ]
      exact this
  have hpad30 : (L + 1 - d) / 2 ≤ 30 := by omega
  have htake : zerosGo.take ((L + 1 - d) / 2)
      = List.replicate ((L + 1 - d) / 2) '0' := by
    unfold zerosGo
    rw [List.take_replicate]
    congr 1
    omega
  have hstring : p.QuadkeyString L =
      String.mk (List.replicate ((L + 1 - d) / 2) '0' ++ specBase4 (p.Quadkey L)) := by
    simp only [Point.QuadkeyString, hform, hd]
    rw [htake]
  refine ⟨hstring, ?_, ?_⟩
  · rw [hstring]
    show (List.replicate ((L + 1 - d) / 2) '0' ++ specBase4 (p.Quadkey L)).length = _
    rw [List.length_append, List.length_replicate]
    omega
  · rw [hstring]
    show (List.replicate ((L + 1 - d) / 2) '0' ++ specBase4 (p.Quadkey L)).length = L ↔ _
    rw [List.length_append, List.length_replicate]
    rcases hdL with h | h <;>
      constructor <;> intro hh <;> omega

/-- Witness for the amended C1 at the point `(0, 0)` and level 2. -/
theorem quadkeyString_padding_witness :
    (2 ≤ 31) ∧
    (Point.QuadkeyString ⟨0, 0⟩ 2 =
      String.mk (List.replicate
          ((2 + 1 - (specBase4 (Point.Quadkey ⟨0, 0⟩ 2)).length) / 2) '0'
        ++ specBase4 (Point.Quadkey ⟨0, 0⟩ 2)) ∧
    (Point.QuadkeyString ⟨0, 0⟩ 2).length =
      (specBase4 (Point.Quadkey ⟨0, 0⟩ 2)).length
        + (2 + 1 - (specBase4 (Point.Quadkey ⟨0, 0⟩ 2)).length) / 2 ∧
    ((Point.QuadkeyString ⟨0, 0⟩ 2).length = 2 ↔
      (specBase4 (Point.Quadkey ⟨0, 0⟩ 2)).length + 1 = 2 ∨
        (specBase4 (Point.Quadkey ⟨0, 0⟩ 2)).length = 2)) :=
  ⟨by decide, quadkeyString_padding ⟨0, 0⟩ 2 (by decide)⟩

/-- Counterexample to C1 as stated: at the point `(-180, 90)` (grid cell
`(0,0)`, quadkey 0) and level 15 the quadkey string has length 8, not 15. -/
theorem quadkeyString_length_counterexample :
    (Point.QuadkeyString ⟨-180, 90⟩ 15).length ≠ 15 := by
  have hproj : scalarMercatorProject (Point.Lng ⟨-180, 90⟩) (Point.Lat ⟨-180, 90⟩)
      (goUintNat ((15 : ℕ) : ℤ)) = (0, 0) := by
    norm_num [scalarMercatorProject, Point.Lng, Point.Lat, goUintNat]
  have hQ : Point.Quadkey ⟨-180, 90⟩ ((15 : ℕ) : ℤ) = 0 := by
    simp only [Point.Quadkey, hproj]
    rw [quadkeyLoop_zero_zero]
    decide
  simp only [Point.QuadkeyString, hQ]
  decide

/-! ## Helper lemmas: the geohash bisection loop -/

lemma ghStep_eval (p : Point) (i : ℕ) (s : GHState) :
    ghStep p i s =
      if i % 2 = 0 then
        if p.x > (s.lngMin + s.lngMax) / 2 then
          ⟨2 * s.hash % 2 ^ 64 + 1, s.latMin, s.latMax,
            (s.lngMin + s.lngMax) / 2, s.lngMax⟩
        else
          ⟨2 * s.hash % 2 ^ 64, s.latMin, s.latMax,
            s.lngMin, (s.lngMin + s.lngMax) / 2⟩
      else
        if p.y > (s.latMin + s.latMax) / 2 then
          ⟨2 * s.hash % 2 ^ 64 + 1, (s.latMin + s.latMax) / 2, s.latMax,
            s.lngMin, s.lngMax⟩
        else
          ⟨2 * s.hash % 2 ^ 64, s.latMin, (s.latMin + s.latMax) / 2,
            s.lngMin, s.lngMax⟩ := by
  simp only [ghStep]
  by_cases h2 : i % 2 = 0
  · rw [if_pos h2, if_pos h2]
    by_cases hc : p.x > (s.lngMin + s.lngMax) / 2
    · rw [if_pos hc, if_pos hc, twoMulModOrOne]
    · rw [if_neg hc, if_neg hc]
  · rw [if_neg h2, if_neg h2]
    by_cases hc : p.y > (s.latMin + s.latMax) / 2
    · rw [if_pos hc, if_pos hc, twoMulModOrOne]
    · rw [if_neg hc, if_neg hc]

lemma mod_double (S : ℕ) : 2 * (S % 2 ^ 64) % 2 ^ 64 = 2 * S % 2 ^ 64 := by
  omega

lemma mod_double_add_one (S : ℕ) :
    2 * (S % 2 ^ 64) % 2 ^ 64 + 1 = (2 * S + 1) % 2 ^ 64 := by
  omega

lemma gh_sum_step (p : Point) (n : ℕ) :
    (∑ i ∈ Finset.range (n + 1), cond (ghSpecBit p i) (2 ^ (n + 1 - 1 - i)) 0)
      = 2 * (∑ i ∈ Finset.range n, cond (ghSpecBit p i) (2 ^ (n - 1 - i)) 0)
        + cond (ghSpecBit p n) 1 0 := by
  rw [Finset.sum_range_succ, Finset.mul_sum]
  congr 1
  · apply Finset.sum_congr rfl
    intro i hi
    have hi' : i < n := Finset.mem_range.mp hi
    have he : n + 1 - 1 - i = (n - 1 - i) + 1 := by omega
    cases ghSpecBit p i
    · simp
    · simp only [cond_true]
      rw [he, pow_succ]
      ring
  · have he : n + 1 - 1 - n = 0 := by omega
    rw [he, pow_zero]


lemma ghLoop_bounds (p : Point) (n : ℕ) :
    (((ghLoop p n).lngMin, (ghLoop p n).lngMax),
      ((ghLoop p n).latMin, (ghLoop p n).latMax)) = ghSpecBounds p n := by
  induction n with
  | zero => simp [ghLoop, ghInit, ghSpecBounds]
  | succ n ih =>
    rw [ghLoop, ghStep_eval]
    simp only [ghSpecBounds]
    rw [← ih]
    dsimp only
    simp only [Point.Lng, Point.Lat]
    by_cases hpar : n % 2 = 0
    · rw [if_pos hpar, if_pos hpar]
      by_cases hc : p.x > ((ghLoop p n).lngMin + (ghLoop p n).lngMax) / 2
      · rw [if_pos hc, if_pos hc]
      · rw [if_neg hc, if_neg hc]
    · rw [if_neg hpar, if_neg hpar]
      by_cases hc : p.y > ((ghLoop p n).latMin + (ghLoop p n).latMax) / 2
      · rw [if_pos hc, if_pos hc]
      · rw [if_neg hc, if_neg hc]

lemma ghSpecBit_loop_even (p : Point) (n : ℕ) (hpar : n % 2 = 0) :
    ghSpecBit p n = decide (p.x > ((ghLoop p n).lngMin + (ghLoop p n).lngMax) / 2) := by
  unfold ghSpecBit
  rw [if_pos hpar, ← ghLoop_bounds p n]
  rfl

lemma ghSpecBit_loop_odd (p : Point) (n : ℕ) (hpar : ¬ (n % 2 = 0)) :
    ghSpecBit p n = decide (p.y > ((ghLoop p n).latMin + (ghLoop p n).latMax) / 2) := by
  unfold ghSpecBit
  rw [if_neg hpar, ← ghLoop_bounds p n]
  rfl

lemma ghLoop_hash (p : Point) (n : ℕ) :
    (ghLoop p n).hash
      = (∑ i ∈ Finset.range n, cond (ghSpecBit p i) (2 ^ (n - 1 - i)) 0) % 2 ^ 64 := by
  induction n with
  | zero => simp [ghLoop, ghInit]
  | succ n ih =>
    rw [ghLoop, ghStep_eval, gh_sum_step]
    by_cases hpar : n % 2 = 0
    · rw [if_pos hpar]
      by_cases hc : p.x > ((ghLoop p n).lngMin + (ghLoop p n).lngMax) / 2
      · rw [if_pos hc]
        have hbit : ghSpecBit p n = true := by
          rw [ghSpecBit_loop_even p n hpar]
          exact decide_eq_true hc
        rw [hbit]
        show 2 * (ghLoop p n).hash % 2 ^ 64 + 1 = _
        rw [ih, mod_double_add_one, cond_true]
      · rw [if_neg hc]
        have hbit : ghSpecBit p n = false := by
          rw [ghSpecBit_loop_even p n hpar]
          exact decide_eq_false hc
        rw [hbit]
        show 2 * (ghLoop p n).hash % 2 ^ 64 = _
        rw [ih, mod_double, cond_false, Nat.add_zero]
    · rw [if_neg hpar]
      by_cases hc : p.y > ((ghLoop p n).latMin + (ghLoop p n).latMax) / 2
      · rw [if_pos hc]
        have hbit : ghSpecBit p n = true := by
          rw [ghSpecBit_loop_odd p n hpar]
          exact decide_eq_true hc
        rw [hbit]
        show 2 * (ghLoop p n).hash % 2 ^ 64 + 1 = _
        rw [ih, mod_double_add_one, cond_true]
      · rw [if_neg hc]
        have hbit : ghSpecBit p n = false := by
          rw [ghSpecBit_loop_odd p n hpar]
          exact decide_eq_false hc
        rw [hbit]
        show 2 * (ghLoop p n).hash % 2 ^ 64 = _
        rw [ih, mod_double, cond_false, Nat.add_zero]

/-- C3: `geoHashBits(p, n)` is computed by `n` bisection iterations starting
from lng in `[-180, 180]` and lat in `[-90, 90]`, bisecting longitude on
even and latitude on odd iteration indices, emitting bit 1 and raising the
lower bound to the midpoint exactly when the active coordinate exceeds the
midpoint (else bit 0, lowering the upper bound), the bits accumulated
most-significant-first: the bit of iteration `i` carries weight
`2^(n-1-i)`, modulo the `int64` wrap. -/
theorem geoHashInt64_bisection (p : Point) (n : ℕ) :
    p.GeoHashInt64 n =
      toInt64 ((∑ i ∈ Finset.range n, cond (ghSpecBit p i) (2 ^ (n - 1 - i)) 0) % 2 ^ 64)
    ∧ (((ghLoop p n).lngMin, (ghLoop p n).lngMax),
        ((ghLoop p n).latMin, (ghLoop p n).latMax)) = ghSpecBounds p n := by
  refine ⟨?_, ghLoop_bounds p n⟩
  unfold Point.GeoHashInt64
  rw [Int.toNat_natCast, ghLoop_hash]

/-! ## Helper lemmas: monotonicity of the geohash accumulator -/

lemma ghLoop_mono (p1 p2 : Point) (hlat : p1.y = p2.y) (hlng : p1.x ≤ p2.x) :
    ∀ n : ℕ, n ≤ 64 →
      (ghLoop p1 n).latMin = (ghLoop p2 n).latMin ∧
      (ghLoop p1 n).latMax = (ghLoop p2 n).latMax ∧
      (ghLoop p1 n).hash < 2 ^ n ∧ (ghLoop p2 n).hash < 2 ^ n ∧
      (((ghLoop p1 n).lngMin = (ghLoop p2 n).lngMin ∧
        (ghLoop p1 n).lngMax = (ghLoop p2 n).lngMax ∧
        (ghLoop p1 n).hash = (ghLoop p2 n).hash) ∨
        (ghLoop p1 n).hash < (ghLoop p2 n).hash) := by
  intro n
  induction n with
  | zero =>
    intro _
    refine ⟨rfl, rfl, ?_, ?_, Or.inl ⟨rfl, rfl, rfl⟩⟩ <;> simp [ghLoop, ghInit]
  | succ n ih =>
    intro hn
    obtain ⟨e1, e2, b1, b2, hcase⟩ := ih (by omega)
    have hpow : (2 : ℕ) ^ n ≤ 2 ^ 63 := Nat.pow_le_pow_right (by norm_num) (by omega)
    have hm1 : 2 * (ghLoop p1 n).hash % 2 ^ 64 = 2 * (ghLoop p1 n).hash :=
      Nat.mod_eq_of_lt (by omega)
    have hm2 : 2 * (ghLoop p2 n).hash % 2 ^ 64 = 2 * (ghLoop p2 n).hash :=
      Nat.mod_eq_of_lt (by omega)
    have hpow1 : (2 : ℕ) ^ (n + 1) = 2 * 2 ^ n := by rw [pow_succ]; ring
    rw [ghLoop, ghLoop, ghStep_eval, ghStep_eval]
    by_cases hpar : n % 2 = 0
    · rw [if_pos hpar, if_pos hpar]
      rcases hcase with ⟨f1, f2, f3⟩ | hlt
      · rw [f1, f2]
        by_cases hc1 : p1.x > ((ghLoop p2 n).lngMin + (ghLoop p2 n).lngMax) / 2
        · have hc2 : p2.x > ((ghLoop p2 n).lngMin + (ghLoop p2 n).lngMax) / 2 :=
            lt_of_lt_of_le hc1 hlng
          rw [if_pos hc1, if_pos hc2]
          exact ⟨e1, e2, by show 2 * _ % _ + 1 < _; omega,
            by show 2 * _ % _ + 1 < _; omega,
            Or.inl ⟨rfl, rfl, by show 2 * _ % _ + 1 = 2 * _ % _ + 1; rw [f3]⟩⟩
        · rw [if_neg hc1]
          by_cases hc2 : p2.x > ((ghLoop p2 n).lngMin + (ghLoop p2 n).lngMax) / 2
          · rw [if_pos hc2]
            exact ⟨e1, e2, by show 2 * _ % _ < _; omega,
              by show 2 * _ % _ + 1 < _; omega,
              Or.inr (by show 2 * _ % _ < 2 * _ % _ + 1; rw [f3]; omega)⟩
          · rw [if_neg hc2]
            exact ⟨e1, e2, by show 2 * _ % _ < _; omega,
              by show 2 * _ % _ < _; omega,
              Or.inl ⟨rfl, rfl, by show 2 * _ % _ = 2 * _ % _; rw [f3]⟩⟩
      · by_cases hc1 : p1.x > ((ghLoop p1 n).lngMin + (ghLoop p1 n).lngMax) / 2 <;>
          by_cases hc2 : p2.x > ((ghLoop p2 n).lngMin + (ghLoop p2 n).lngMax) / 2
        · rw [if_pos hc1, if_pos hc2]
          exact ⟨e1, e2, by show 2 * _ % _ + 1 < _; omega,
            by show 2 * _ % _ + 1 < _; omega,
            Or.inr (by show 2 * _ % _ + 1 < 2 * _ % _ + 1; omega)⟩
        · rw [if_pos hc1, if_neg hc2]
          exact ⟨e1, e2, by show 2 * _ % _ + 1 < _; omega,
            by show 2 * _ % _ < _; omega,
            Or.inr (by show 2 * _ % _ + 1 < 2 * _ % _; omega)⟩
        · rw [if_neg hc1, if_pos hc2]
          exact ⟨e1, e2, by show 2 * _ % _ < _; omega,
            by show 2 * _ % _ + 1 < _; omega,
            Or.inr (by show 2 * _ % _ < 2 * _ % _ + 1; omega)⟩
        · rw [if_neg hc1, if_neg hc2]
          exact ⟨e1, e2, by show 2 * _ % _ < _; omega,
            by show 2 * _ % _ < _; omega,
            Or.inr (by show 2 * _ % _ < 2 * _ % _; omega)⟩
    · rw [if_neg hpar, if_neg hpar]
      rw [e1, e2, hlat]
      by_cases hc : p2.y > ((ghLoop p2 n).latMin + (ghLoop p2 n).latMax) / 2
      · rw [if_pos hc, if_pos hc]
        rcases hcase with ⟨f1, f2, f3⟩ | hlt
        · exact ⟨rfl, rfl, by show 2 * _ % _ + 1 < _; omega,
            by show 2 * _ % _ + 1 < _; omega,
            Or.inl ⟨f1, f2, by show 2 * _ % _ + 1 = 2 * _ % _ + 1; rw [f3]⟩⟩
        · exact ⟨rfl, rfl, by show 2 * _ % _ + 1 < _; omega,
            by show 2 * _ % _ + 1 < _; omega,
            Or.inr (by show 2 * _ % _ + 1 < 2 * _ % _ + 1; omega)⟩
      · rw [if_neg hc, if_neg hc]
        rcases hcase with ⟨f1, f2, f3⟩ | hlt
        · exact ⟨rfl, rfl, by show 2 * _ % _ < _; omega,
            by show 2 * _ % _ < _; omega,
            Or.inl ⟨f1, f2, by show 2 * _ % _ = 2 * _ % _; rw [f3]⟩⟩
        · exact ⟨rfl, rfl, by show 2 * _ % _ < _; omega,
            by show 2 * _ % _ < _; omega,
            Or.inr (by show 2 * _ % _ < 2 * _ % _; omega)⟩

/-- C5 (amended): for every bit count `n ≤ 63` (so that the accumulated
hash fits the nonnegative `int64` range without wrapping), two points with
the same latitude, in the same hemisphere, and with the longitude of the
first at most the longitude of the second, have non-decreasing
`geoHashBits` integers. -/
theorem geoHashInt64_monotone (p1 p2 : Point) (n : ℕ) (hn : n ≤ 63)
    (hlat : p1.Lat = p2.Lat) (_hhemi : sameHemisphere p1.Lng p2.Lng)
    (hlng : p1.Lng ≤ p2.Lng) :
    p1.GeoHashInt64 n ≤ p2.GeoHashInt64 n := by
  obtain ⟨-, -, b1, b2, hcase⟩ := ghLoop_mono p1 p2 hlat hlng n (by omega)
  have hpow : (2 : ℕ) ^ n ≤ 2 ^ 63 := Nat.pow_le_pow_right (by norm_num) hn
  have h1 : (ghLoop p1 n).hash < 2 ^ 63 := by omega
  have h2 : (ghLoop p2 n).hash < 2 ^ 63 := by omega
  unfold Point.GeoHashInt64
  rw [Int.toNat_natCast, toInt64_of_lt h1, toInt64_of_lt h2]
  rcases hcase with ⟨-, -, he⟩ | hl
  · exact le_of_eq (by exact_mod_cast he)
  · exact le_of_lt (by exact_mod_cast hl)

/-- Witness for the amended C5: points `(10, 20)` and `(30, 20)` at 5 bits. -/
theorem geoHashInt64_monotone_witness :
    (5 ≤ 63) ∧ Point.Lat ⟨10, 20⟩ = Point.Lat ⟨30, 20⟩ ∧
      sameHemisphere (Point.Lng ⟨10, 20⟩) (Point.Lng ⟨30, 20⟩) ∧
      Point.Lng ⟨10, 20⟩ ≤ Point.Lng ⟨30, 20⟩ ∧
      Point.GeoHashInt64 ⟨10, 20⟩ 5 ≤ Point.GeoHashInt64 ⟨30, 20⟩ 5 :=
  ⟨by decide, rfl, Or.inl ⟨by decide, by decide⟩, by decide,
    geoHashInt64_monotone ⟨10, 20⟩ ⟨30, 20⟩ 5 (by decide) rfl
      (Or.inl ⟨by decide, by decide⟩) (by decide)⟩

set_option maxRecDepth 100000

/-- Counterexample to C5 as stated (for every bit count): at 67 bits the
`int64` accumulator drops the three leading bits, among them the lng bit of
iteration 2 that separates `(89, 0)` from `(91, 0)`; the retained bits then
order the two points strictly the wrong way around, although they share a
latitude and a hemisphere and `89 ≤ 91`. -/
theorem geoHashInt64_monotone_counterexample :
    Point.Lat ⟨89, 0⟩ = Point.Lat ⟨91, 0⟩ ∧
      sameHemisphere (Point.Lng ⟨89, 0⟩) (Point.Lng ⟨91, 0⟩) ∧
      Point.Lng ⟨89, 0⟩ ≤ Point.Lng ⟨91, 0⟩ ∧
      ¬ (Point.GeoHashInt64 ⟨89, 0⟩ 67 ≤ Point.GeoHashInt64 ⟨91, 0⟩ 67) := by
  refine ⟨rfl, Or.inl ⟨by decide, by decide⟩, by decide, ?_⟩
  norm_num [Point.GeoHashInt64, ghLoop, ghStep_eval, ghInit, toInt64]

/-- C7 (code cross-check at the failing inputs): out-of-range bit counts do
not fail.  A negative bit count silently yields the hash 0 (the loop does
not run), and 64 bits silently yield a wrapped, negative `int64` hash for a
point in the eastern hemisphere — garbage for the documented integer-based
ordering — instead of any `OutOfRange` failure; `Point.Quadkey` and
`Point.GeoHashInt64` have no error channel at all. -/
theorem geoHash_out_of_range_silent :
    Point.GeoHashInt64 ⟨0, 0⟩ (-5) = 0 ∧ Point.GeoHashInt64 ⟨1, 1⟩ 64 < 0 := by
  constructor
  · rfl
  · norm_num [Point.GeoHashInt64, ghLoop, ghStep_eval, ghInit, toInt64]

/-- C6 (code cross-check at the failing input): the string `"5"` is not a
well-formed base-4 numeral, yet `NewPointFromQuadkeyString` does not fail:
the discarded `strconv.ParseInt` error leaves the value 0, which is then
silently decoded as the quadkey 0 at level 1. -/
theorem quadkeyString_parse_silent_default :
    base4SyntaxOK "5" = false ∧
      NewPointFromQuadkeyString "5" = NewPointFromQuadkey 0 1 := by
  constructor
  · rfl
  · rfl

/-! ## Helper lemmas: the geohash string write loop -/

lemma ghWrites_none (P : ℤ) (h0 : ℤ) (buf0 : List Char) (hlen : buf0.length = 15)
    (hP : 15 < P) : ∀ k : ℕ, 1 ≤ k → ghWrites P h0 buf0 k = none := by
  intro k
  induction k with
  | zero => intro h; omega
  | succ k ih =>
    intro _
    rw [ghWrites]
    cases k with
    | zero =>
      rw [ghWrites, Option.some_bind]
      unfold ghIter goSet?
      rw [if_neg (by rw [hlen]; push_cast; omega)]
      rfl
    | succ m =>
      rw [ih (by omega)]
      rfl

lemma ghWrites_spec (P : ℕ) (hP : P ≤ 15) (h0 : ℤ) (buf0 : List Char)
    (hlen : buf0.length = 15) :
    ∀ k : ℕ, k ≤ P →
      ghWrites (P : ℤ) h0 buf0 k =
        some (buf0.take (P - k)
            ++ (List.range k).map (fun j => base32Char (shr5s h0 (k - 1 - j)))
            ++ buf0.drop P,
          shr5s h0 k) := by
  intro k
  induction k with
  | zero =>
    intro _
    simp [ghWrites, shr5s, List.take_append_drop]
  | succ k ih =>
    intro hk
    have hkP : k ≤ P := by omega
    rw [ghWrites, ih hkP, Option.some_bind]
    unfold ghIter
    dsimp only
    have hA : (buf0.take (P - k)).length = P - k := by
      rw [List.length_take]; omega
    have hT : ((List.range k).map (fun j => base32Char (shr5s h0 (k - 1 - j)))).length = k :=
      by rw [List.length_map, List.length_range]
    have hbuflen : (buf0.take (P - k)
        ++ (List.range k).map (fun j => base32Char (shr5s h0 (k - 1 - j)))
        ++ buf0.drop P).length = 15 := by
      rw [List.length_append, List.length_append, hA, hT, List.length_drop, hlen]
      omega
    unfold goSet?
    rw [hbuflen]
    rw [if_pos (by omega)]
    rw [Option.map_some']
    have hidx : ((P : ℤ) - 1 - (k : ℕ)).toNat = P - 1 - k := by push_cast; omega
    rw [hidx]
    refine congrArg some (Prod.ext ?_ rfl)
    show (buf0.take (P - k)
        ++ (List.range k).map (fun j => base32Char (shr5s h0 (k - 1 - j)))
        ++ buf0.drop P).set (P - 1 - k) (base32Char (shr5s h0 k)) = _
    rw [List.set_append_left _ _ (by rw [List.length_append, hA, hT]; omega)]
    rw [List.set_append_left _ _ (by rw [hA]; omega)]
    rw [List.set_eq_take_cons_drop _ (by rw [hA]; omega)]
    rw [List.take_take, List.drop_take]
    have hmin : min (P - 1 - k) (P - k) = P - 1 - k := by omega
    have hz : (P - k) - (P - 1 - k + 1) = 0 := by omega
    rw [hmin, hz, List.take_zero]
    rw [List.range_succ_eq_map, List.map_cons, List.map_map]
    have hhead : k + 1 - 1 - 0 = k := by omega
    have hcomp : ((fun j => base32Char (shr5s h0 (k + 1 - 1 - j))) ∘ Nat.succ)
        = fun j => base32Char (shr5s h0 (k - 1 - j)) := by
      funext j
      show base32Char (shr5s h0 (k + 1 - 1 - (j + 1))) = base32Char (shr5s h0 (k - 1 - j))
      have he : k + 1 - 1 - (j + 1) = k - 1 - j := by omega
      rw [he]
    rw [hhead, hcomp]
    have hPk : P - (k + 1) = P - 1 - k := by omega
    rw [hPk]
    simp [List.append_assoc]

lemma specGeoHashStr_length (h : ℤ) (c : ℕ) : (specGeoHashStr h c).length = c := by
  have he : (specGeoHashStr h c).length
      = ((List.range c).map fun j => base32Char (shr5s h (c - 1 - j))).length := rfl
  rw [he, List.length_map, List.length_range]

lemma geoHash_eq (p : Point) (c : ℕ) (hc : c ≤ 15) :
    p.GeoHash (c : ℤ) = some (specGeoHashStr (p.GeoHashInt64 (5 * (c : ℤ))) c) := by
  simp only [Point.GeoHash]
  have htoNat : ((c : ℤ)).toNat = c := Int.toNat_natCast c
  rw [htoNat]
  rw [ghWrites_spec c hc _ (List.replicate 15 (Char.ofNat 0)) (by simp) c le_rfl]
  rw [Option.some_bind]
  dsimp only
  have hsub : c - c = 0 := by omega
  rw [hsub, List.take_zero, List.nil_append]
  have hTlen : ((List.range c).map
      (fun j => base32Char (shr5s (p.GeoHashInt64 (5 * (c : ℤ))) (c - 1 - j)))).length
      = c := by
    rw [List.length_map, List.length_range]
  unfold goTake?
  have hlen2 : (((List.range c).map
      (fun j => base32Char (shr5s (p.GeoHashInt64 (5 * (c : ℤ))) (c - 1 - j))))
      ++ (List.replicate 15 (Char.ofNat 0)).drop c).length = 15 := by
    rw [List.length_append, hTlen, List.length_drop, List.length_replicate]
    omega
  rw [hlen2]
  rw [if_pos (by push_cast; omega)]
  rw [htoNat, List.take_left' hTlen, Option.map_some']
  rfl

/-- C4 (amended): for every point `p` and precision `c` in `[0, 15]`,
`geoHash(p, c)` returns (without a bounds fault) exactly the
`c`-character string obtained from `geoHashBits(p, 5c)` by repeatedly
taking the five least significant bits, mapping them through the base-32
alphabet, filling the string from its last position backward, and
arithmetically shifting the accumulator right by 5. -/
theorem geoHash_base32_equivalence (p : Point) (c : ℕ) (hc : c ≤ 15) :
    p.GeoHash (c : ℤ) = some (specGeoHashStr (p.GeoHashInt64 (5 * (c : ℤ))) c) ∧
      (specGeoHashStr (p.GeoHashInt64 (5 * (c : ℤ))) c).length = c :=
  ⟨geoHash_eq p c hc, specGeoHashStr_length _ c⟩

/-- Witness for the amended C4 at the point `(0, 0)` and precision 1. -/
theorem geoHash_base32_equivalence_witness :
    (1 ≤ 15) ∧
      (Point.GeoHash ⟨0, 0⟩ ((1 : ℕ) : ℤ)
          = some (specGeoHashStr (Point.GeoHashInt64 ⟨0, 0⟩ (5 * ((1 : ℕ) : ℤ))) 1) ∧
        (specGeoHashStr (Point.GeoHashInt64 ⟨0, 0⟩ (5 * ((1 : ℕ) : ℤ))) 1).length = 1) :=
  ⟨by decide, geoHash_base32_equivalence ⟨0, 0⟩ 1 (by decide)⟩

/-- Counterexample to C4 as stated (for every precision): at precision 16
the write loop's very first array index, 15, is already out of range of the
fixed 15-byte buffer, so `GeoHash` faults (`none`) instead of returning the
16-character base-32 string. -/
theorem geoHash_base32_equivalence_counterexample :
    Point.GeoHash ⟨0, 0⟩ 16 ≠
      some (specGeoHashStr (Point.GeoHashInt64 ⟨0, 0⟩ (5 * 16)) 16) := by
  have hnone : Point.GeoHash ⟨0, 0⟩ 16 = none := by
    simp only [Point.GeoHash]
    rw [ghWrites_none 16 _ _ (by simp) (by norm_num) ((16 : ℤ).toNat) (by norm_num)]
    rfl
  rw [hnone]
  simp

/-- C9: `GeoHash` is total exactly on precisions in `[0, 15]`: inside that
range it returns a string of length `c`; a negative `c` faults on the final
slice `result[:precision]` and a `c` above 15 faults on the first buffer
write (`none` models the Go runtime bounds fault on the 15-byte buffer). -/
theorem geoHash_total (p : Point) (c : ℤ) :
    (0 ≤ c ∧ c ≤ 15 → ∃ s : String, p.GeoHash c = some s ∧ (s.length : ℤ) = c) ∧
    ((c < 0 ∨ 15 < c) → p.GeoHash c = none) := by
  constructor
  · rintro ⟨h0, h15⟩
    have hc : c = ((c.toNat : ℕ) : ℤ) := (Int.toNat_of_nonneg h0).symm
    refine ⟨specGeoHashStr (p.GeoHashInt64 (5 * c)) c.toNat, ?_, ?_⟩
    · rw [hc]
      exact geoHash_eq p c.toNat (by omega)
    · rw [specGeoHashStr_length]
      omega
  · intro h
    rcases h with hneg | hbig
    · simp only [Point.GeoHash]
      have hz : c.toNat = 0 := by omega
      rw [hz, ghWrites, Option.some_bind]
      dsimp only
      unfold goTake?
      rw [if_neg (by push_cast; omega)]
      rfl
    · simp only [Point.GeoHash]
      rw [ghWrites_none c _ _ (by simp) hbig c.toNat (by omega)]
      rfl

/-- Witness for C9: precision 2 returns a 2-character string and precision
16 faults, at the point `(0, 0)`. -/
theorem geoHash_total_witness :
    ((0 ≤ (2 : ℤ) ∧ (2 : ℤ) ≤ 15) ∧
      (∃ s : String, Point.GeoHash ⟨0, 0⟩ 2 = some s ∧ (s.length : ℤ) = 2)) ∧
    (((16 : ℤ) < 0 ∨ 15 < (16 : ℤ)) ∧ Point.GeoHash ⟨0, 0⟩ 16 = none) :=
  ⟨⟨⟨by decide, by decide⟩, (geoHash_total ⟨0, 0⟩ 2).1 ⟨by decide, by decide⟩⟩,
   ⟨Or.inr (by decide), (geoHash_total ⟨0, 0⟩ 16).2 (Or.inr (by decide))⟩⟩
